import Mathlib

/-!
Verification of the parallel digital shredder (src/main.cpp, src/shredder.h,
src/utils.cpp) against its design specification.

The embedding models:
- the per-pass fill pattern selection of src/main.cpp lines 148-154;
- the chunk partition of src/main.cpp lines 102-137;
- the seek-then-write worker loop of src/main.cpp lines 156-191, as a trace
  of seek and write events driven by an abstract I/O oracle;
- the pass loop and overall control flow of main (src/main.cpp lines 31-236);
- is_ssd, trim_file and secure_delete_file from src/utils.cpp (Linux branch),
  over abstract environments describing the outcomes of the system calls.
-/

/-- The three fill policies of the rotation (spec: PatternSource). -/
inductive Pattern
  | ZERO
  | ONES
  | RANDOM
deriving DecidableEq

/-- Fill pattern for a 1-based pass index, per src/main.cpp lines 148-154:
`(pass - 1) % 3` selects 0x00, 0xFF or random fill. -/
def patternFor (passIndex : Nat) : Pattern :=
  if (passIndex - 1) % 3 = 0 then Pattern.ZERO
  else if (passIndex - 1) % 3 = 1 then Pattern.ONES
  else Pattern.RANDOM

/-- Constant fill byte of a pass: `some b` is the memset byte, `none` means
use_random (src/main.cpp lines 145-154). -/
def patternByte (passIndex : Nat) : Option Nat :=
  if (passIndex - 1) % 3 = 0 then some 0x00
  else if (passIndex - 1) % 3 = 1 then some 0xFF
  else none

/-- A contiguous byte range assigned to one worker. -/
structure Chunk where
  start : Nat
  len : Nat
deriving DecidableEq

/-- Chunk of thread `tid`, per src/main.cpp lines 102-137: `start = tid * (L / N)`,
length `L / N`, and the last thread additionally takes the remainder `L % N`. -/
def chunkAt (L N tid : Nat) : Chunk :=
  { start := tid * (L / N)
    len := if tid = N - 1 then L / N + L % N else L / N }

/-- The full chunk partition for file length `L` and `N` threads
(src/main.cpp lines 130-137). -/
def chunks (L N : Nat) : List Chunk :=
  (List.range N).map (chunkAt L N)

/-- Buffer size of the worker write loop (src/main.cpp line 140). -/
def BUFFER_SIZE : Nat := 1024 * 1024

/-- Outcome oracle for the I/O calls made by a worker: whether fseek to a given
offset succeeds, and how many bytes fwrite reports for a request at a given
offset of a given size. -/
structure IOEnv where
  seekOk : Nat → Bool
  writeRes : Nat → Nat → Nat

/-- Observable worker actions: an fseek to an absolute offset, or an fwrite at
an absolute offset recording the requested and the actual byte count. -/
inductive Ev
  | seek (off : Nat)
  | write (off requested actual : Nat)
deriving DecidableEq

/-- One worker's write loop for a single pass (src/main.cpp lines 156-187):
while bytes remain, write `min remaining BUFFER_SIZE` bytes after an fseek to
the current offset; a seek failure or a short write stops the worker at once.
`fuel` bounds the recursion; it is instantiated with the chunk length, which
suffices because every iteration consumes at least one byte. -/
def workerLoopAux (env : IOEnv) : Nat → Nat → Nat → List Ev
  | 0, _, _ => []
  | fuel + 1, off, rem =>
    if rem = 0 then []
    else
      let n := min rem BUFFER_SIZE
      if env.seekOk off then
        let w := min (env.writeRes off n) n
        if w = n then
          Ev.seek off :: Ev.write off n n :: workerLoopAux env fuel (off + n) (rem - n)
        else
          [Ev.seek off, Ev.write off n w]
      else []

/-- Trace of one worker processing the chunk `[off, off + rem)` for one pass. -/
def workerLoop (env : IOEnv) (off rem : Nat) : List Ev :=
  workerLoopAux env rem off rem

/-- The oracle of a run in which every fseek succeeds and every fwrite is full. -/
def perfectEnv : IOEnv :=
  { seekOk := fun _ => true, writeRes := fun _ n => n }

/-- Concatenated trace of all workers of one pass, in thread order
(src/main.cpp lines 130-191). -/
def passTrace (env : IOEnv) (L N : Nat) : List Ev :=
  (chunks L N).flatMap fun c => workerLoop env c.start c.len

/-- Whether an event writes the byte at offset `o`. -/
def coversB (o : Nat) : Ev → Bool
  | Ev.seek _ => false
  | Ev.write w _ act => decide (w ≤ o ∧ o < w + act)

/-- How many times the byte at offset `o` is written in a trace. -/
def writesAt (o : Nat) (tr : List Ev) : Nat :=
  tr.countP (coversB o)

/-- Trace of a successful `P`-pass run: the pass loop of src/main.cpp lines
120-197 repeats the same worker fan-out once per pass. -/
def runTrace (P L N : Nat) : List Ev :=
  (List.range P).flatMap fun _ => passTrace perfectEnv L N

/-- Contribution of one event to the progress counter: the code adds the
requested byte count only after a full write (src/main.cpp lines 176-187). -/
def progressDelta : Ev → Nat
  | Ev.seek _ => 0
  | Ev.write _ req act => if act = req then req else 0

/-- Final value of the per-pass progress counter after a trace. -/
def progressTotal (tr : List Ev) : Nat :=
  (tr.map progressDelta).sum

/-- Successive values of the progress counter along a trace, starting from the
reset value 0 (src/main.cpp line 122). -/
def progressStates (tr : List Ev) : List Nat :=
  List.scanl (fun acc ev => acc + progressDelta ev) 0 tr

/-- Fill byte written at absolute offset `i` during a pass: the constant
pattern byte, or a byte drawn from the abstract random oracle `rnd`. -/
def fillFor (rnd : Nat → Nat → Nat) (passIndex : Nat) : Nat → Nat :=
  match patternByte passIndex with
  | some b => fun _ => b
  | none => rnd passIndex

/-- Effect of one event on the file content. -/
def applyEv (fill : Nat → Nat) (f : Nat → Nat) : Ev → Nat → Nat
  | Ev.seek _ => f
  | Ev.write w _ act => fun i => if w ≤ i ∧ i < w + act then fill i else f i

/-- Effect of a whole trace on the file content. -/
def applyTrace (fill : Nat → Nat) (tr : List Ev) (f : Nat → Nat) : Nat → Nat :=
  tr.foldl (applyEv fill) f

/-- File content after the first `k` passes of a successful run that started
from content `f0`. -/
def fileAfter (rnd : Nat → Nat → Nat) (L N : Nat) (f0 : Nat → Nat) : Nat → Nat → Nat
  | 0 => f0
  | k + 1 => applyTrace (fillFor rnd (k + 1)) (passTrace perfectEnv L N) (fileAfter rnd L N f0 k)

/-- Outcomes of the open(2) call in trim_file (src/utils.cpp lines 357-364). -/
inductive OpenRes
  | ok
  | enoent
  | otherErr
deriving DecidableEq

/-- Outcomes of the fallocate(2) call in trim_file (src/utils.cpp lines 380-391). -/
inductive FallocRes
  | ok
  | eopnotsupp
  | enosys
  | otherErr
deriving DecidableEq

/-- Abstract filesystem behaviour seen by trim_file. -/
structure TrimEnv where
  openRes : OpenRes
  fstatOk : Bool
  isReg : Bool
  fallocRes : FallocRes
deriving DecidableEq

/-- Result of trim_file: the returned boolean, whether the fallocate
hole-punch was issued, and whether it succeeded. -/
structure TrimOut where
  result : Bool
  fallocCalled : Bool
  discarded : Bool
deriving DecidableEq

/-- trim_file, Linux branch (src/utils.cpp lines 351-397): skip files below
4096 bytes; ENOENT on open is success; other open errors, fstat errors and
non-regular files fail; any fallocate outcome, success or not, returns true. -/
def trim_file (env : TrimEnv) (fileSize : Int) : TrimOut :=
  if fileSize < 4096 then ⟨true, false, false⟩
  else
    match env.openRes with
    | OpenRes.enoent => ⟨true, false, false⟩
    | OpenRes.otherErr => ⟨false, false, false⟩
    | OpenRes.ok =>
      if env.fstatOk = false then ⟨false, false, false⟩
      else if env.isReg = false then ⟨false, false, false⟩
      else
        match env.fallocRes with
        | FallocRes.ok => ⟨true, true, true⟩
        | _ => ⟨true, true, false⟩

/-- secure_delete_file (src/utils.cpp lines 401-413): call trim_file only for
SSDs, ignore its result, then return whether remove(3) succeeded. The second
component is `none` when trim_file was never called. -/
def secure_delete_file (env : TrimEnv) (removeOk : Bool) (ssd : Bool)
    (fileSize : Int) : Bool × Option TrimOut :=
  let t := if ssd then some (trim_file env fileSize) else none
  (removeOk, t)

/-- Whether the chunk `c` contains the byte offset `o`. -/
def chunkContainsB (o : Nat) (c : Chunk) : Bool :=
  decide (c.start ≤ o ∧ o < c.start + c.len)

/-- How many chunks of a partition contain the byte offset `o`. -/
def chunkCount (o : Nat) (cs : List Chunk) : Nat :=
  cs.countP (chunkContainsB o)

/-- Index of the chunk that contains offset `o` in the partition of `[0, L)`
into `N` chunks (for `o < L`, `N ≥ 1`). -/
def targetIdx (L N o : Nat) : Nat :=
  if L / N = 0 then N - 1 else min (o / (L / N)) (N - 1)

/-- Whether the offsets touched by an event lie inside `[start, start + len)`. -/
def evInRange (start len : Nat) : Ev → Prop
  | Ev.seek o => start ≤ o ∧ o < start + len
  | Ev.write o _ act => start ≤ o ∧ o + act ≤ start + len

/-- Checks that every write event is immediately preceded by a seek event to
the same absolute offset. -/
def writesSeekPreceded : List Ev → Bool
  | [] => true
  | Ev.write _ _ _ :: _ => false
  | Ev.seek o :: Ev.write w _ _ :: rest => (o == w) && writesSeekPreceded rest
  | Ev.seek _ :: rest => writesSeekPreceded rest

/-- Outcomes of the probing steps of is_ssd, Linux branch (src/utils.cpp lines
276-349): whether stat succeeds, whether /proc/mounts opens, whether a mount
point matching the path is found, whether the rotational sysfs file opens, and
the first character fgets yields from it (`none` when fgets returns NULL). -/
structure ProbeEnv where
  statOk : Bool
  mountsOk : Bool
  matchFound : Bool
  rotationalOpens : Bool
  rotationalRead : Option Char

/-- is_ssd, Linux branch (src/utils.cpp lines 276-349). Returns the boolean
result together with the number of warning lines printed: every failure path
warns to stderr except the one where the rotational file opens but fgets
yields nothing, which silently returns false. -/
def is_ssd (env : ProbeEnv) : Bool × Nat :=
  if env.statOk = false then (false, 1)
  else if env.mountsOk = false then (false, 1)
  else if env.matchFound = false then (false, 1)
  else if env.rotationalOpens = false then (false, 1)
  else
    match env.rotationalRead with
    | some c => (c == '0', 0)
    | none => (false, 0)

/-- Whether the worker loop hits a failure (failed fseek or short fwrite)
somewhere in its chunk. On that path main.cpp frees the worker buffer inside
the loop and then, because break only leaves the while loop, frees it again
after the loop (src/main.cpp lines 169-179 and 189-190): a double free. The
recursion mirrors workerLoopAux iteration for iteration. -/
def workerFailsAux (env : IOEnv) : Nat → Nat → Nat → Bool
  | 0, _, _ => false
  | fuel + 1, off, rem =>
    if rem = 0 then false
    else
      let n := min rem BUFFER_SIZE
      if env.seekOk off then
        let w := min (env.writeRes off n) n
        if w = n then workerFailsAux env fuel (off + n) (rem - n)
        else true
      else true

/-- Whether the worker assigned the chunk `[off, off + rem)` hits the
double-free failure path. A zero-length chunk never does: its loop body never
runs. -/
def workerFails (env : IOEnv) (off rem : Nat) : Bool :=
  workerFailsAux env rem off rem

/-- Whether any worker of a pass hits the double-free failure path. -/
def passFails (env : IOEnv) (L N : Nat) : Bool :=
  (chunks L N).any fun c => workerFails env c.start c.len

/-- The first pass (1-based) in which some worker hits the double-free path,
if any. Freeing the buffer twice is undefined behaviour; in practice the
allocator aborts the process during that pass, so later passes never start. -/
def crashPass? (io : Nat → IOEnv) (P L N : Nat) : Option Nat :=
  ((List.range P).map (fun k => k + 1)).find? fun k => passFails (io k) L N

/-- Environment of one whole run of main: the CLI arguments, the outcomes of
validation, probing, the user confirmations, the open call, the file size,
the per-pass I/O oracle, and the deletion-time filesystem behaviour. -/
structure MainEnv where
  passes : Int
  threads : Int
  validateOk : Bool
  probe : ProbeEnv
  confirmShred : Bool
  openOk : Bool
  fileSize : Int
  io : Nat → IOEnv
  confirmDelete : Bool
  trim : TrimEnv
  removeOk : Bool

/-- Observable outcome of main (src/main.cpp lines 31-236): an early exit with
code 1; a user cancellation with code 0; an abnormal termination in pass `k`
caused by the double free of a failing worker — undefined behaviour, modelled
as a crash carrying the traces of the passes completed before `k` (the state
of pass `k` itself is indeterminate and not recorded); or a completed shred
carrying the trace of every pass, the probed storage flag, and the deletion
outcome (`none` when the user declined deletion). -/
inductive MainOut
  | argError
  | cancelled
  | crashed (traces : List (Nat × List Ev)) (pass : Nat)
  | finished (traces : List (Nat × List Ev)) (ssd : Bool)
      (deletion : Option (Bool × Option TrimOut))
deriving DecidableEq

/-- The control flow of main (src/main.cpp lines 31-236): argument checks,
validation, storage probe, confirmation, open, size check, then the pass loop.
The pass loop has no failure check of its own, but a failing worker
double-frees its buffer (src/main.cpp lines 169-179 and 189-190), which is
undefined behaviour and in practice aborts the process during that pass; the
model records this as `crashed` at the first failing pass. Only a run with no
worker failure reaches the deletion prompt. -/
def mainRun (env : MainEnv) : MainOut :=
  if env.passes < 1 then MainOut.argError
  else if env.threads < 1 then MainOut.argError
  else if env.validateOk = false then MainOut.argError
  else
    let ssd := (is_ssd env.probe).1
    if env.confirmShred = false then MainOut.cancelled
    else if env.openOk = false then MainOut.argError
    else if env.fileSize ≤ 0 then MainOut.argError
    else
      let L := env.fileSize.toNat
      let N := env.threads.toNat
      let P := env.passes.toNat
      match crashPass? env.io P L N with
      | some k =>
        MainOut.crashed
          ((List.range (k - 1)).map fun j => (j + 1, passTrace (env.io (j + 1)) L N)) k
      | none =>
        let traces := (List.range P).map fun k => (k + 1, passTrace (env.io (k + 1)) L N)
        let deletion :=
          if env.confirmDelete then
            some (secure_delete_file env.trim env.removeOk ssd env.fileSize)
          else none
        MainOut.finished traces ssd deletion

/-- Exit code of main: 1 on the early error paths, 0 on cancellation and on a
completed run; `none` when the run never returns from main because the double
free aborted the process. -/
def exitCode : MainOut → Option Nat
  | MainOut.argError => some 1
  | MainOut.cancelled => some 0
  | MainOut.crashed _ _ => none
  | MainOut.finished _ _ _ => some 0

/-- The 1-based indices of the passes that ran to completion. -/
def executedPasses : MainOut → List Nat
  | MainOut.finished ts _ _ => ts.map Prod.fst
  | MainOut.crashed ts _ => ts.map Prod.fst
  | _ => []

/-- The trace of a given completed pass of a run. -/
def traceOfPass (m : MainOut) (k : Nat) : List Ev :=
  match m with
  | MainOut.finished ts _ _ => (ts.lookup k).getD []
  | MainOut.crashed ts _ => (ts.lookup k).getD []
  | _ => []

/-- Whether secure_delete_file was invoked at the end of the run. -/
def deleteInvoked : MainOut → Bool
  | MainOut.finished _ _ (some _) => true
  | _ => false

/-- I/O oracle under which every fwrite of pass 2 reports 0 bytes written and
every other pass is failure-free. -/
def failAtPass2 : Nat → IOEnv :=
  fun p => if p = 2 then { seekOk := fun _ => true, writeRes := fun _ _ => 0 } else perfectEnv

/-- A run of 5 passes on a 10-byte file with one thread, in which the single
fwrite of pass 2 fails, and the user confirms both prompts. -/
def c1Env : MainEnv :=
  { passes := 5
    threads := 1
    validateOk := true
    probe := ⟨true, true, true, true, some '0'⟩
    confirmShred := true
    openOk := true
    fileSize := 10
    io := failAtPass2
    confirmDelete := true
    trim := ⟨OpenRes.ok, true, true, FallocRes.ok⟩
    removeOk := true }

/-- A probe environment in which everything resolves except that fgets on the
rotational sysfs file yields nothing. -/
def c8Env : ProbeEnv :=
  ⟨true, true, true, true, none⟩

/-- A probe environment in which stat on the target path fails. -/
def c8WEnv : ProbeEnv :=
  ⟨false, true, true, true, some '1'⟩

/-- C4: the fill pattern is a pure function of the 1-based pass index via
`(pass_index - 1) % 3`, mapping 0 to ZERO (0x00 fill), 1 to ONES (0xFF fill)
and 2 to RANDOM; for every `pass_index ≥ 1` the rotation has period 3, and the
first four passes use ZERO, ONES, RANDOM, ZERO. -/
theorem c4_pattern_rotation (p : Nat) (hp : 1 ≤ p) :
    (patternFor p = Pattern.ZERO ↔ (p - 1) % 3 = 0) ∧
    (patternFor p = Pattern.ONES ↔ (p - 1) % 3 = 1) ∧
    (patternFor p = Pattern.RANDOM ↔ (p - 1) % 3 = 2) ∧
    (patternByte p = some 0x00 ↔ patternFor p = Pattern.ZERO) ∧
    (patternByte p = some 0xFF ↔ patternFor p = Pattern.ONES) ∧
    patternFor (p + 3) = patternFor p ∧
    [1, 2, 3, 4].map patternFor = [Pattern.ZERO, Pattern.ONES, Pattern.RANDOM, Pattern.ZERO] := by
  have hper : (p + 2) % 3 = (p - 1) % 3 := by omega
  have h3 : (p - 1) % 3 = 0 ∨ (p - 1) % 3 = 1 ∨ (p - 1) % 3 = 2 := by omega
  refine ⟨?_, ?_, ?_, ?_, ?_, ?_, by decide⟩ <;>
    · rcases h3 with h | h | h <;> simp [patternFor, patternByte, hper, h]

/-- C4 witness at pass index 4. -/
theorem c4_pattern_rotation_witness :
    (patternFor 4 = Pattern.ZERO ↔ (4 - 1) % 3 = 0) ∧
    (patternFor 4 = Pattern.ONES ↔ (4 - 1) % 3 = 1) ∧
    (patternFor 4 = Pattern.RANDOM ↔ (4 - 1) % 3 = 2) ∧
    (patternByte 4 = some 0x00 ↔ patternFor 4 = Pattern.ZERO) ∧
    (patternByte 4 = some 0xFF ↔ patternFor 4 = Pattern.ONES) ∧
    patternFor (4 + 3) = patternFor 4 ∧
    [1, 2, 3, 4].map patternFor = [Pattern.ZERO, Pattern.ONES, Pattern.RANDOM, Pattern.ZERO] :=
  c4_pattern_rotation 4 (by decide)

/-- C5: secure_delete_file returns success exactly when the unlink succeeds
(a discard failure is non-fatal), skips the discard entirely for non-SSD
storage, and issues the hole-punch only when the storage is SSD and the file
is at least 4096 bytes. -/
theorem c5_secure_delete (env : TrimEnv) (removeOk ssd : Bool) (fileSize : Int) :
    ((secure_delete_file env removeOk ssd fileSize).1 = removeOk) ∧
    (ssd = false → (secure_delete_file env removeOk ssd fileSize).2 = none) ∧
    (∀ t, (secure_delete_file env removeOk ssd fileSize).2 = some t →
      t.fallocCalled = true → ssd = true ∧ 4096 ≤ fileSize) := by
  refine ⟨rfl, ?_, ?_⟩
  · intro hs
    simp [secure_delete_file, hs]
  · intro t ht hcall
    cases ssd with
    | false => simp [secure_delete_file] at ht
    | true =>
      refine ⟨rfl, ?_⟩
      have ht2 : trim_file env fileSize = t := by
        simpa [secure_delete_file] using ht
      by_cases hfs : fileSize < 4096
      · simp only [trim_file, if_pos hfs] at ht2
        rw [← ht2] at hcall
        simp at hcall
      · omega

/-- C5 witness: HDD storage with a 10000-byte file skips the discard and
succeeds when the unlink succeeds. -/
theorem c5_secure_delete_witness :
    (secure_delete_file ⟨OpenRes.ok, true, true, FallocRes.ok⟩ true false 10000).1 = true ∧
    (secure_delete_file ⟨OpenRes.ok, true, true, FallocRes.ok⟩ true false 10000).2 = none :=
  ⟨(c5_secure_delete ⟨OpenRes.ok, true, true, FallocRes.ok⟩ true false 10000).1,
   (c5_secure_delete ⟨OpenRes.ok, true, true, FallocRes.ok⟩ true false 10000).2.1 rfl⟩

/-- C10: trim_file returns success without any completed discard for files
below 4096 bytes, for ENOENT at open time, and for EOPNOTSUPP/ENOSYS from the
hole-punch; it fails only when the file is large enough and either open fails
for another reason, fstat fails, or the file is not regular. -/
theorem c10_trim_file (env : TrimEnv) (fileSize : Int) :
    (fileSize < 4096 → trim_file env fileSize = ⟨true, false, false⟩) ∧
    (env.openRes = OpenRes.enoent →
      (trim_file env fileSize).result = true ∧ (trim_file env fileSize).fallocCalled = false) ∧
    (env.openRes = OpenRes.ok → env.fstatOk = true → env.isReg = true →
      (env.fallocRes = FallocRes.eopnotsupp ∨ env.fallocRes = FallocRes.enosys) →
      (trim_file env fileSize).result = true ∧ (trim_file env fileSize).discarded = false) ∧
    ((trim_file env fileSize).result = false →
      4096 ≤ fileSize ∧
        (env.openRes = OpenRes.otherErr ∨
          (env.openRes = OpenRes.ok ∧ (env.fstatOk = false ∨ env.isReg = false)))) := by
  obtain ⟨o, fst, reg, fal⟩ := env
  refine ⟨?_, ?_, ?_, ?_⟩
  · intro h
    simp [trim_file, h]
  · intro h
    subst h
    by_cases hfs : fileSize < 4096 <;> simp [trim_file, hfs]
  · intro ho hf hr hfal
    subst ho; subst hf; subst hr
    by_cases hfs : fileSize < 4096
    · simp [trim_file, hfs]
    · rcases hfal with h | h <;> subst h <;> simp [trim_file, hfs]
  · intro h
    by_cases hfs : fileSize < 4096
    · simp [trim_file, hfs] at h
    · refine ⟨by omega, ?_⟩
      cases o with
      | enoent => simp [trim_file, hfs] at h
      | otherErr => exact Or.inl rfl
      | ok =>
        refine Or.inr ⟨rfl, ?_⟩
        cases fst with
        | false => exact Or.inl rfl
        | true =>
          cases reg with
          | false => exact Or.inr rfl
          | true => cases fal <;> simp [trim_file, hfs] at h

/-- C10 witness: a 5000-byte regular file on a filesystem without hole-punch
support still reports success, with no discard performed. -/
theorem c10_trim_file_witness :
    (trim_file ⟨OpenRes.ok, true, true, FallocRes.eopnotsupp⟩ 5000).result = true ∧
    (trim_file ⟨OpenRes.ok, true, true, FallocRes.eopnotsupp⟩ 5000).discarded = false :=
  (c10_trim_file ⟨OpenRes.ok, true, true, FallocRes.eopnotsupp⟩ 5000).2.2.1 rfl rfl rfl (Or.inl rfl)

/-- Counting one designated index inside `List.range n`. -/
theorem countP_range_eq_ite (n k : Nat) :
    (List.range n).countP (fun i => decide (i = k)) = if k < n then 1 else 0 := by
  induction n with
  | zero => simp
  | succ m ih =>
    rw [List.range_succ, List.countP_append, ih, List.countP_cons, List.countP_nil]
    by_cases h1 : k < m
    · have h2 : ¬ m = k := by omega
      have h3 : k < m + 1 := by omega
      simp [h1, h2, h3]
    · by_cases h2 : m = k
      · subst h2
        have h3 : m < m + 1 := by omega
        simp [h1, h3]
      · have h3 : ¬ k < m + 1 := by omega
        simp [h1, h2, h3]

/-- For `o < L` and `i < N`, chunk `i` contains offset `o` exactly when `i` is
the designated index `targetIdx L N o`. -/
theorem chunkAt_contains_iff (L N o i : Nat) (hN : 1 ≤ N) (hi : i < N) (ho : o < L) :
    ((chunkAt L N i).start ≤ o ∧ o < (chunkAt L N i).start + (chunkAt L N i).len) ↔
      i = targetIdx L N o := by
  have hdm : N * (L / N) + L % N = L := Nat.div_add_mod L N
  have hstart : (chunkAt L N i).start = i * (L / N) := rfl
  by_cases hi2 : i = N - 1
  · have hlen : (chunkAt L N i).len = L / N + L % N := by
      simp [chunkAt, hi2]
    rw [hstart, hlen]
    by_cases hb : L / N = 0
    · have htgt : targetIdx L N o = N - 1 := by
        simp [targetIdx, hb]
      rw [htgt]
      rw [hb] at hdm ⊢
      subst hi2
      simp only [Nat.mul_zero]
      exact iff_of_true ⟨Nat.zero_le o, by omega⟩ (by trivial)
    · have hbpos : 0 < L / N := Nat.pos_of_ne_zero hb
      have htgt : targetIdx L N o = min (o / (L / N)) (N - 1) := by
        simp [targetIdx, hb]
      rw [htgt]
      have hsm : N * (L / N) = (N - 1) * (L / N) + L / N := by
        have hN1 : N = N - 1 + 1 := by omega
        calc N * (L / N) = (N - 1 + 1) * (L / N) := by rw [← hN1]
          _ = (N - 1) * (L / N) + L / N := by ring
      subst hi2
      constructor
      · rintro ⟨hle, _⟩
        have h3 : N - 1 ≤ o / (L / N) := (Nat.le_div_iff_mul_le hbpos).mpr hle
        exact (min_eq_right h3).symm
      · intro h
        have h3 : N - 1 ≤ o / (L / N) := by
          rcases le_total (o / (L / N)) (N - 1) with hc | hc
          · have h4 : min (o / (L / N)) (N - 1) = o / (L / N) := min_eq_left hc
            omega
          · exact hc
        refine ⟨(Nat.le_div_iff_mul_le hbpos).mp h3, ?_⟩
        omega
  · have hlen : (chunkAt L N i).len = L / N := by
      simp [chunkAt, hi2]
    rw [hstart, hlen]
    by_cases hb : L / N = 0
    · have htgt : targetIdx L N o = N - 1 := by
        simp [targetIdx, hb]
      rw [htgt]
      rw [hb] at hdm ⊢
      simp only [Nat.mul_zero]
      omega
    · have hbpos : 0 < L / N := Nat.pos_of_ne_zero hb
      have hilt : i < N - 1 := by omega
      have htgt : targetIdx L N o = min (o / (L / N)) (N - 1) := by
        simp [targetIdx, hb]
      rw [htgt]
      have hsm : (i + 1) * (L / N) = i * (L / N) + L / N := by ring
      constructor
      · rintro ⟨h1, h2⟩
        have hdiv : o / (L / N) = i := Nat.div_eq_of_lt_le h1 (by omega)
        rw [hdiv, min_eq_left (by omega : i ≤ N - 1)]
      · intro h
        have hdiv : o / (L / N) = i := by
          rcases le_total (o / (L / N)) (N - 1) with hc | hc
          · rw [min_eq_left hc] at h
            omega
          · rw [min_eq_right hc] at h
            omega
        constructor
        · have h5 := Nat.div_mul_le_self o (L / N)
          rw [hdiv] at h5
          exact h5
        · have hmod2 : o % (L / N) < L / N := Nat.mod_lt _ hbpos
          have hdm2 : (L / N) * (o / (L / N)) + o % (L / N) = o := Nat.div_add_mod o (L / N)
          rw [hdiv, Nat.mul_comm (L / N) i] at hdm2
          omega

/-- Every offset below `L` lies in exactly one chunk; no offset at or above `L`
lies in any chunk. -/
theorem chunkCount_eq (L N o : Nat) (hN : 1 ≤ N) :
    chunkCount o (chunks L N) = if o < L then 1 else 0 := by
  have hdm : N * (L / N) + L % N = L := Nat.div_add_mod L N
  rw [chunkCount, chunks, List.countP_map]
  by_cases ho : o < L
  · rw [if_pos ho]
    have hcongr : ∀ x ∈ List.range N,
        ((chunkContainsB o ∘ chunkAt L N) x = true) ↔ (decide (x = targetIdx L N o) = true) := by
      intro x hx
      rw [List.mem_range] at hx
      simp only [Function.comp, chunkContainsB, decide_eq_true_iff]
      exact chunkAt_contains_iff L N o x hN hx ho
    rw [List.countP_congr hcongr, countP_range_eq_ite]
    have ht : targetIdx L N o < N := by
      rw [targetIdx]
      split_ifs
      · omega
      · have h6 := min_le_right (o / (L / N)) (N - 1)
        omega
    rw [if_pos ht]
  · rw [if_neg ho]
    refine List.countP_eq_zero.mpr ?_
    intro i hi
    rw [List.mem_range] at hi
    simp only [Function.comp, chunkContainsB, decide_eq_true_iff]
    rintro ⟨h1, h2⟩
    apply ho
    by_cases hi2 : i = N - 1
    · subst hi2
      have hsm : N * (L / N) = (N - 1) * (L / N) + L / N := by
        have hN1 : N = N - 1 + 1 := by omega
        calc N * (L / N) = (N - 1 + 1) * (L / N) := by rw [← hN1]
          _ = (N - 1) * (L / N) + L / N := by ring
      have hlen : (chunkAt L N (N - 1)).len = L / N + L % N := by
        simp [chunkAt]
      have hst : (chunkAt L N (N - 1)).start = (N - 1) * (L / N) := rfl
      rw [hst, hlen] at h2
      omega
    · have hsm : (i + 1) * (L / N) = i * (L / N) + L / N := by ring
      have hle : i + 1 ≤ N := by omega
      have hmul := Nat.mul_le_mul_right (L / N) hle
      have hlen : (chunkAt L N i).len = L / N := by
        simp [chunkAt, hi2]
      have hst : (chunkAt L N i).start = i * (L / N) := rfl
      rw [hst, hlen] at h2
      omega

/-- C2: for any file length `L` and worker count `N ≥ 1`, every byte offset
below `L` lies in exactly one chunk and no chunk reaches beyond `L` (pairwise
disjoint, exact cover of `[0, L)`); workers `i < N - 1` get `start = i * (L/N)`
and length `L / N`, and only the last worker absorbs the remainder `L % N`. -/
theorem c2_chunk_partition (L N o : Nat) (hN : 1 ≤ N) :
    (chunkCount o (chunks L N) = if o < L then 1 else 0) ∧
    (chunks L N).length = N ∧
    (∀ i, i < N - 1 → (chunks L N)[i]? = some ⟨i * (L / N), L / N⟩) ∧
    (chunks L N)[N - 1]? = some ⟨(N - 1) * (L / N), L / N + L % N⟩ := by
  refine ⟨chunkCount_eq L N o hN, by simp [chunks], ?_, ?_⟩
  · intro i hi
    rw [chunks, List.getElem?_map, List.getElem?_range (by omega : i < N)]
    have hne : ¬ i = N - 1 := by omega
    simp [chunkAt, hne]
  · rw [chunks, List.getElem?_map, List.getElem?_range (by omega : N - 1 < N)]
    simp [chunkAt]

/-- C2 witness: `L = 10`, `N = 3` gives chunk lengths 3, 3, 4, and offset 6
lies in exactly one chunk. -/
theorem c2_chunk_partition_witness :
    (chunkCount 6 (chunks 10 3) = if 6 < 10 then 1 else 0) ∧
    (chunks 10 3).map Chunk.len = [3, 3, 4] :=
  ⟨(c2_chunk_partition 10 3 6 (by decide)).1, by decide⟩

/-- Unfolding of one iteration of the worker loop. -/
theorem workerLoopAux_succ (env : IOEnv) (f off rem : Nat) (hr : ¬ rem = 0) :
    workerLoopAux env (f + 1) off rem =
      if env.seekOk off then
        if min (env.writeRes off (min rem BUFFER_SIZE)) (min rem BUFFER_SIZE)
            = min rem BUFFER_SIZE then
          Ev.seek off :: Ev.write off (min rem BUFFER_SIZE) (min rem BUFFER_SIZE) ::
            workerLoopAux env f (off + min rem BUFFER_SIZE) (rem - min rem BUFFER_SIZE)
        else
          [Ev.seek off, Ev.write off (min rem BUFFER_SIZE)
            (min (env.writeRes off (min rem BUFFER_SIZE)) (min rem BUFFER_SIZE))]
      else [] := by
  simp only [workerLoopAux, if_neg hr]

/-- Under the failure-free oracle, every iteration produces a full write. -/
theorem workerLoopAux_perfect_succ (f off rem : Nat) (hr : ¬ rem = 0) :
    workerLoopAux perfectEnv (f + 1) off rem =
      Ev.seek off :: Ev.write off (min rem BUFFER_SIZE) (min rem BUFFER_SIZE) ::
        workerLoopAux perfectEnv f (off + min rem BUFFER_SIZE) (rem - min rem BUFFER_SIZE) := by
  rw [workerLoopAux_succ perfectEnv f off rem hr]
  simp [perfectEnv]

/-- Unfolding writesAt on a cons cell. -/
theorem writesAt_cons (o : Nat) (ev : Ev) (tr : List Ev) :
    writesAt o (ev :: tr) = writesAt o tr + (if coversB o ev = true then 1 else 0) :=
  List.countP_cons _ _ _

/-- writesAt distributes over concatenation. -/
theorem writesAt_append (o : Nat) (l1 l2 : List Ev) :
    writesAt o (l1 ++ l2) = writesAt o l1 + writesAt o l2 :=
  List.countP_append _ _ _

/-- Under the failure-free oracle, a worker writes each offset of its chunk
exactly once and no offset outside it. -/
theorem workerLoopAux_perfect_writesAt (o : Nat) :
    ∀ fuel off rem, rem ≤ fuel →
      writesAt o (workerLoopAux perfectEnv fuel off rem) =
        if off ≤ o ∧ o < off + rem then 1 else 0 := by
  intro fuel
  induction fuel with
  | zero =>
    intro off rem h
    have hr : rem = 0 := by omega
    subst hr
    rw [show workerLoopAux perfectEnv 0 off 0 = [] from rfl]
    rw [show writesAt o [] = 0 from rfl, if_neg (by omega)]
  | succ f ih =>
    intro off rem h
    by_cases hr : rem = 0
    · subst hr
      rw [show workerLoopAux perfectEnv (f + 1) off 0 = [] from rfl]
      rw [show writesAt o [] = 0 from rfl, if_neg (by omega)]
    · rw [workerLoopAux_perfect_succ f off rem hr]
      have hble : 1 ≤ BUFFER_SIZE := by norm_num [BUFFER_SIZE]
      have hn1 : 1 ≤ min rem BUFFER_SIZE := le_min (by omega) hble
      have hnle : min rem BUFFER_SIZE ≤ rem := min_le_left _ _
      rw [writesAt_cons, writesAt_cons, ih (off + min rem BUFFER_SIZE) (rem - min rem BUFFER_SIZE) (by omega)]
      simp only [coversB, decide_eq_true_iff, Bool.false_eq_true, if_false]
      split_ifs <;> omega

/-- writesAt of a single worker over its whole chunk. -/
theorem writesAt_workerLoop_perfect (o off rem : Nat) :
    writesAt o (workerLoop perfectEnv off rem) = if off ≤ o ∧ o < off + rem then 1 else 0 :=
  workerLoopAux_perfect_writesAt o rem off rem le_rfl

/-- writesAt over a fan-out of workers is the sum over the workers. -/
theorem writesAt_flatMap (o : Nat) (f : Chunk → List Ev) :
    ∀ cs : List Chunk, writesAt o (cs.flatMap f) = (cs.map fun c => writesAt o (f c)).sum := by
  intro cs
  induction cs with
  | nil => rfl
  | cons c cs ih =>
    rw [List.flatMap_cons, writesAt_append, ih, List.map_cons, List.sum_cons]

/-- countP as a sum of indicator values. -/
theorem countP_eq_sum_map {α : Type} (p : α → Bool) :
    ∀ l : List α, l.countP p = (l.map fun a => if p a = true then 1 else 0).sum := by
  intro l
  induction l with
  | nil => rfl
  | cons a l ih =>
    rw [List.countP_cons, ih, List.map_cons, List.sum_cons]
    omega

/-- A failure-free pass writes each offset of `[0, L)` exactly once. -/
theorem writesAt_passTrace_perfect (L N o : Nat) (hN : 1 ≤ N) :
    writesAt o (passTrace perfectEnv L N) = if o < L then 1 else 0 := by
  rw [passTrace, writesAt_flatMap]
  have hmap : ((chunks L N).map fun c => writesAt o (workerLoop perfectEnv c.start c.len)) =
      (chunks L N).map fun c => if chunkContainsB o c = true then 1 else 0 := by
    apply List.map_congr_left
    intro c _
    rw [writesAt_workerLoop_perfect]
    simp [chunkContainsB]
  rw [hmap, ← countP_eq_sum_map]
  exact chunkCount_eq L N o hN

/-- A failure-free `P`-pass run writes each offset of `[0, L)` exactly `P`
times. -/
theorem writesAt_runTrace (P L N o : Nat) (hN : 1 ≤ N) (ho : o < L) :
    writesAt o (runTrace P L N) = P := by
  induction P with
  | zero => rfl
  | succ q ih =>
    have h2 : writesAt o ([q].flatMap fun _ => passTrace perfectEnv L N) = 1 := by
      simp only [List.flatMap_cons, List.flatMap_nil, List.append_nil]
      rw [writesAt_passTrace_perfect L N o hN, if_pos ho]
    have ih2 : writesAt o ((List.range q).flatMap fun _ => passTrace perfectEnv L N) = q := ih
    rw [runTrace, List.range_succ, List.flatMap_append, writesAt_append, h2, ih2]

/-- A trace that never writes offset `o` leaves the byte at `o` unchanged. -/
theorem applyTrace_untouched (fill : Nat → Nat) (o : Nat) :
    ∀ (tr : List Ev) (f : Nat → Nat), writesAt o tr = 0 → applyTrace fill tr f o = f o := by
  intro tr
  induction tr with
  | nil => intro f _; rfl
  | cons ev tr ih =>
    intro f h
    rw [writesAt_cons] at h
    have h1 : writesAt o tr = 0 := by omega
    have h2 : ¬ coversB o ev = true := by
      intro hc
      rw [if_pos hc] at h
      omega
    have h3 : applyTrace fill (ev :: tr) f = applyTrace fill tr (applyEv fill f ev) := rfl
    rw [h3, ih _ h1]
    cases ev with
    | seek w => rfl
    | write w r a =>
      have h4 : ¬ (w ≤ o ∧ o < w + a) := by
        intro hcc
        exact h2 (by simp only [coversB, decide_eq_true_iff]; exact hcc)
      simp only [applyEv]
      rw [if_neg h4]

/-- A trace that writes offset `o` at least once leaves the pass fill byte
there, whatever was written before. -/
theorem applyTrace_covered (fill : Nat → Nat) (o : Nat) :
    ∀ (tr : List Ev) (f : Nat → Nat), 0 < writesAt o tr → applyTrace fill tr f o = fill o := by
  intro tr
  induction tr with
  | nil =>
    intro f h
    rw [show writesAt o [] = 0 from rfl] at h
    omega
  | cons ev tr ih =>
    intro f h
    have h3 : applyTrace fill (ev :: tr) f = applyTrace fill tr (applyEv fill f ev) := rfl
    by_cases h1 : 0 < writesAt o tr
    · rw [h3]
      exact ih _ h1
    · have h1z : writesAt o tr = 0 := by omega
      rw [writesAt_cons, h1z] at h
      have hc : coversB o ev = true := by
        by_cases hcc : coversB o ev = true
        · exact hcc
        · rw [if_neg hcc] at h
          omega
      rw [h3, applyTrace_untouched fill o tr _ h1z]
      cases ev with
      | seek w => simp [coversB] at hc
      | write w r a =>
        have h4 : w ≤ o ∧ o < w + a := by
          rw [show coversB o (Ev.write w r a) = decide (w ≤ o ∧ o < w + a) from rfl] at hc
          exact decide_eq_true_iff.mp hc
        simp only [applyEv]
        rw [if_pos h4]

/-- The fill byte of a ZERO pass is 0x00. -/
theorem patternByte_of_ZERO (p : Nat) (h : patternFor p = Pattern.ZERO) :
    patternByte p = some 0x00 := by
  have h3 : (p - 1) % 3 = 0 ∨ (p - 1) % 3 = 1 ∨ (p - 1) % 3 = 2 := by omega
  rcases h3 with h0 | h0 | h0 <;> simp [patternFor, h0] at h ⊢ <;> simp [patternByte, h0]

/-- The fill byte of a ONES pass is 0xFF. -/
theorem patternByte_of_ONES (p : Nat) (h : patternFor p = Pattern.ONES) :
    patternByte p = some 0xFF := by
  have h3 : (p - 1) % 3 = 0 ∨ (p - 1) % 3 = 1 ∨ (p - 1) % 3 = 2 := by omega
  rcases h3 with h0 | h0 | h0 <;> simp [patternFor, h0] at h ⊢ <;> simp [patternByte, h0]

/-- C3: after a successful run of all `P` passes over a file of length `L`,
every offset in `[0, L)` was written exactly `P` times, and immediately after
any pass `k` whose pattern is ZERO (resp. ONES) the whole file reads 0x00
(resp. 0xFF). -/
theorem c3_pass_writes (L N P k o : Nat) (rnd : Nat → Nat → Nat) (f0 : Nat → Nat)
    (hN : 1 ≤ N) (ho : o < L) (hk : 1 ≤ k) (hkP : k ≤ P) :
    writesAt o (runTrace P L N) = P ∧
    (patternFor k = Pattern.ZERO → fileAfter rnd L N f0 k o = 0x00) ∧
    (patternFor k = Pattern.ONES → fileAfter rnd L N f0 k o = 0xFF) := by
  have hcov : 0 < writesAt o (passTrace perfectEnv L N) := by
    rw [writesAt_passTrace_perfect L N o hN, if_pos ho]
    omega
  obtain ⟨j, rfl⟩ : ∃ j, k = j + 1 := ⟨k - 1, by omega⟩
  have hfill : fileAfter rnd L N f0 (j + 1) o = fillFor rnd (j + 1) o :=
    applyTrace_covered (fillFor rnd (j + 1)) o (passTrace perfectEnv L N)
      (fileAfter rnd L N f0 j) hcov
  refine ⟨writesAt_runTrace P L N o hN ho, ?_, ?_⟩
  · intro hz
    rw [hfill]
    simp [fillFor, patternByte_of_ZERO (j + 1) hz]
  · intro hz
    rw [hfill]
    simp [fillFor, patternByte_of_ONES (j + 1) hz]

/-- C3 witness: `L = 10`, `N = 3`, `P = 4`, offset 5; pass 1 is a ZERO pass
and leaves 0x00 at offset 5. -/
theorem c3_pass_writes_witness :
    writesAt 5 (runTrace 4 10 3) = 4 ∧
    fileAfter (fun _ _ => 7) 10 3 (fun _ => 3) 1 5 = 0x00 :=
  ⟨(c3_pass_writes 10 3 4 1 5 (fun _ _ => 7) (fun _ => 3)
      (by decide) (by decide) (by decide) (by decide)).1,
   (c3_pass_writes 10 3 4 1 5 (fun _ _ => 7) (fun _ => 3)
      (by decide) (by decide) (by decide) (by decide)).2.1 (by decide)⟩

/-- Events inside a subrange are inside any enclosing range. -/
theorem evInRange_mono (s1 l1 s2 l2 : Nat) (h1 : s2 ≤ s1) (h2 : s1 + l1 ≤ s2 + l2) :
    ∀ ev, evInRange s1 l1 ev → evInRange s2 l2 ev := by
  intro ev h
  cases ev with
  | seek o =>
    simp only [evInRange] at h ⊢
    omega
  | write o r a =>
    simp only [evInRange] at h ⊢
    omega

/-- Every event of a worker trace stays inside the assigned range, for any
I/O oracle, failures included. -/
theorem workerLoopAux_mem_range (env : IOEnv) :
    ∀ fuel off rem, ∀ ev ∈ workerLoopAux env fuel off rem, evInRange off rem ev := by
  intro fuel
  induction fuel with
  | zero =>
    intro off rem ev hev
    rw [show workerLoopAux env 0 off rem = [] from rfl] at hev
    exact absurd hev (List.not_mem_nil ev)
  | succ f ih =>
    intro off rem ev hev
    by_cases hr : rem = 0
    · subst hr
      rw [show workerLoopAux env (f + 1) off 0 = [] from rfl] at hev
      exact absurd hev (List.not_mem_nil ev)
    · rw [workerLoopAux_succ env f off rem hr] at hev
      have hble : 1 ≤ BUFFER_SIZE := by norm_num [BUFFER_SIZE]
      have hn1 : 1 ≤ min rem BUFFER_SIZE := le_min (by omega) hble
      have hnle : min rem BUFFER_SIZE ≤ rem := min_le_left _ _
      by_cases hs : env.seekOk off = true
      · rw [if_pos hs] at hev
        by_cases hw : min (env.writeRes off (min rem BUFFER_SIZE)) (min rem BUFFER_SIZE)
            = min rem BUFFER_SIZE
        · rw [if_pos hw] at hev
          simp only [List.mem_cons] at hev
          rcases hev with rfl | rfl | hev
          · simp only [evInRange]
            omega
          · simp only [evInRange]
            omega
          · exact evInRange_mono (off + min rem BUFFER_SIZE) (rem - min rem BUFFER_SIZE)
              off rem (by omega) (by omega) ev (ih _ _ ev hev)
        · rw [if_neg hw] at hev
          have hwle : min (env.writeRes off (min rem BUFFER_SIZE)) (min rem BUFFER_SIZE)
              ≤ min rem BUFFER_SIZE := min_le_right _ _
          simp only [List.mem_cons, List.not_mem_nil] at hev
          rcases hev with rfl | rfl | hev
          · simp only [evInRange]
            omega
          · simp only [evInRange]
            omega
          · exact hev.elim
      · rw [if_neg hs] at hev
        exact absurd hev (List.not_mem_nil ev)

/-- In every worker trace, each write is immediately preceded by a seek to the
same offset, for any I/O oracle. -/
theorem wsp_workerLoopAux (env : IOEnv) :
    ∀ fuel off rem, writesSeekPreceded (workerLoopAux env fuel off rem) = true := by
  intro fuel
  induction fuel with
  | zero => intro off rem; rfl
  | succ f ih =>
    intro off rem
    by_cases hr : rem = 0
    · subst hr
      rfl
    · rw [workerLoopAux_succ env f off rem hr]
      by_cases hs : env.seekOk off = true
      · rw [if_pos hs]
        by_cases hw : min (env.writeRes off (min rem BUFFER_SIZE)) (min rem BUFFER_SIZE)
            = min rem BUFFER_SIZE
        · rw [if_pos hw]
          simp [writesSeekPreceded, ih (off + min rem BUFFER_SIZE) (rem - min rem BUFFER_SIZE)]
        · rw [if_neg hw]
          simp [writesSeekPreceded]
      · rw [if_neg hs]
        rfl

/-- C6: every write a worker performs is immediately preceded by an explicit
seek to the same absolute offset, and every seek and write of a worker stays
inside the worker's assigned chunk `[start, start + len)` — for any I/O
oracle, including failing ones. -/
theorem c6_worker_frame (env : IOEnv) (start len : Nat) :
    writesSeekPreceded (workerLoop env start len) = true ∧
    ∀ ev ∈ workerLoop env start len, evInRange start len ev :=
  ⟨wsp_workerLoopAux env len start len, workerLoopAux_mem_range env len start len⟩

/-- C6 witness at a concrete chunk `[3, 7)`. -/
theorem c6_worker_frame_witness :
    writesSeekPreceded (workerLoop perfectEnv 3 4) = true ∧
    ∀ ev ∈ workerLoop perfectEnv 3 4, evInRange 3 4 ev :=
  c6_worker_frame perfectEnv 3 4

/-- The progress counter starts each pass at its reset value 0. -/
theorem progressStates_head (tr : List Ev) : (progressStates tr).head? = some 0 := by
  cases tr with
  | nil => rfl
  | cons ev tr => rfl

/-- Add-only updates keep the counter trajectory non-decreasing, from any
starting value. -/
theorem chain_scanl_progress :
    ∀ (tr : List Ev) (b : Nat),
      List.Chain' (fun x y => x ≤ y)
        (List.scanl (fun acc ev => acc + progressDelta ev) b tr) := by
  intro tr
  induction tr with
  | nil =>
    intro b
    simp [List.scanl]
  | cons ev tr ih =>
    intro b
    rw [List.scanl_cons, List.singleton_append, List.chain'_cons']
    refine ⟨?_, ih _⟩
    intro y hy
    have hh : (List.scanl (fun acc ev => acc + progressDelta ev)
        (b + progressDelta ev) tr).head? = some (b + progressDelta ev) := by
      cases tr <;> rfl
    rw [hh, Option.mem_some_iff] at hy
    omega

/-- progressTotal distributes over concatenation. -/
theorem progressTotal_append (l1 l2 : List Ev) :
    progressTotal (l1 ++ l2) = progressTotal l1 + progressTotal l2 := by
  simp [progressTotal]

/-- Unfolding progressTotal on a cons cell. -/
theorem progressTotal_cons (ev : Ev) (tr : List Ev) :
    progressTotal (ev :: tr) = progressDelta ev + progressTotal tr := by
  simp [progressTotal]

/-- A failure-free worker contributes exactly its chunk length to the
progress counter. -/
theorem progressTotal_workerLoopAux_perfect :
    ∀ fuel off rem, rem ≤ fuel → progressTotal (workerLoopAux perfectEnv fuel off rem) = rem := by
  intro fuel
  induction fuel with
  | zero =>
    intro off rem h
    have hr : rem = 0 := by omega
    subst hr
    rfl
  | succ f ih =>
    intro off rem h
    by_cases hr : rem = 0
    · subst hr
      rfl
    · rw [workerLoopAux_perfect_succ f off rem hr]
      have hble : 1 ≤ BUFFER_SIZE := by norm_num [BUFFER_SIZE]
      have hn1 : 1 ≤ min rem BUFFER_SIZE := le_min (by omega) hble
      have hnle : min rem BUFFER_SIZE ≤ rem := min_le_left _ _
      rw [progressTotal_cons, progressTotal_cons,
        ih (off + min rem BUFFER_SIZE) (rem - min rem BUFFER_SIZE) (by omega)]
      simp [progressDelta]

/-- A failure-free worker contributes its full chunk length. -/
theorem progressTotal_workerLoop_perfect (off rem : Nat) :
    progressTotal (workerLoop perfectEnv off rem) = rem :=
  progressTotal_workerLoopAux_perfect rem off rem le_rfl

/-- A failure-free fan-out contributes the sum of the chunk lengths. -/
theorem progressTotal_flatMap_perfect :
    ∀ cs : List Chunk,
      progressTotal (cs.flatMap fun c => workerLoop perfectEnv c.start c.len) =
        (cs.map Chunk.len).sum := by
  intro cs
  induction cs with
  | nil => rfl
  | cons c cs ih =>
    rw [List.flatMap_cons, progressTotal_append, ih, List.map_cons, List.sum_cons,
      progressTotal_workerLoop_perfect c.start c.len]

/-- Sum of a constant over a range. -/
theorem sum_range_const (b : Nat) : ∀ m : Nat, ((List.range m).map fun _ => b).sum = m * b := by
  intro m
  induction m with
  | zero => simp
  | succ q ih =>
    have h2 : (q + 1) * b = q * b + b := by ring
    rw [List.range_succ, List.map_append, List.sum_append, ih, h2]
    simp

/-- The chunk lengths of the partition sum to the file length. -/
theorem sum_chunk_len (L N : Nat) (hN : 1 ≤ N) : ((chunks L N).map Chunk.len).sum = L := by
  obtain ⟨m, rfl⟩ : ∃ m, N = m + 1 := ⟨N - 1, by omega⟩
  have hdm : (m + 1) * (L / (m + 1)) + L % (m + 1) = L := Nat.div_add_mod L (m + 1)
  rw [chunks, List.range_succ, List.map_append, List.map_append, List.sum_append]
  have hmap : ((List.range m).map (chunkAt L (m + 1))).map Chunk.len =
      (List.range m).map fun _ => L / (m + 1) := by
    rw [List.map_map]
    apply List.map_congr_left
    intro i hi
    rw [List.mem_range] at hi
    have hne : ¬ i = m := by omega
    simp [Function.comp, chunkAt, hne]
  rw [hmap, sum_range_const]
  have hlast : (([m].map (chunkAt L (m + 1))).map Chunk.len).sum
      = L / (m + 1) + L % (m + 1) := by
    simp [chunkAt]
  rw [hlast]
  have h2 : (m + 1) * (L / (m + 1)) = m * (L / (m + 1)) + L / (m + 1) := by ring
  omega

/-- C7: the progress counter of a pass starts at the reset value 0, is
monotonically non-decreasing along the pass under add-only updates for any
I/O oracle, and after a failure-free pass equals the sum of the chunk
lengths, which is the file length `L`, whatever the worker count. -/
theorem c7_progress_counter (L N : Nat) (env : IOEnv) (hN : 1 ≤ N) :
    (progressStates (passTrace env L N)).head? = some 0 ∧
    List.Chain' (fun x y => x ≤ y) (progressStates (passTrace env L N)) ∧
    progressTotal (passTrace perfectEnv L N) = ((chunks L N).map Chunk.len).sum ∧
    ((chunks L N).map Chunk.len).sum = L :=
  ⟨progressStates_head _, chain_scanl_progress _ 0,
   progressTotal_flatMap_perfect (chunks L N), sum_chunk_len L N hN⟩

/-- C7 witness at `L = 10`, `N = 3`. -/
theorem c7_progress_counter_witness :
    (progressStates (passTrace perfectEnv 10 3)).head? = some 0 ∧
    List.Chain' (fun x y => x ≤ y) (progressStates (passTrace perfectEnv 10 3)) ∧
    progressTotal (passTrace perfectEnv 10 3) = ((chunks 10 3).map Chunk.len).sum ∧
    ((chunks 10 3).map Chunk.len).sum = 10 :=
  c7_progress_counter 10 3 perfectEnv (by decide)

/-- C9: with one worker the single chunk covers the whole file; with more
workers than bytes every worker but the last receives a zero-length chunk, a
zero-length chunk produces no seek and no write and contributes 0 to the
progress counter, and the last chunk still covers all of `[0, L)`. -/
theorem c9_degenerate_chunks (L N off : Nat) (env : IOEnv) (hN : 1 ≤ N) (hLN : L < N) :
    chunks L 1 = [⟨0, L⟩] ∧
    workerLoop env off 0 = [] ∧
    progressTotal (workerLoop env off 0) = 0 ∧
    (∀ i, i < N - 1 → (chunks L N)[i]? = some ⟨0, 0⟩) ∧
    (chunks L N)[N - 1]? = some ⟨0, L⟩ := by
  have hdiv : L / N = 0 := Nat.div_eq_of_lt hLN
  have hmod : L % N = L := Nat.mod_eq_of_lt hLN
  refine ⟨?_, rfl, rfl, ?_, ?_⟩
  · have h01 : List.range 1 = [0] := rfl
    rw [chunks, h01]
    simp [chunkAt, Nat.mod_one]
  · intro i hi
    rw [chunks, List.getElem?_map, List.getElem?_range (by omega : i < N)]
    have hne : ¬ i = N - 1 := by omega
    simp [chunkAt, hne, hdiv]
  · rw [chunks, List.getElem?_map, List.getElem?_range (by omega : N - 1 < N)]
    simp [chunkAt, hdiv, hmod]

/-- C9 witness: `L = 2`, `N = 5`. -/
theorem c9_degenerate_chunks_witness :
    chunks 2 1 = [⟨0, 2⟩] ∧
    workerLoop perfectEnv 7 0 = [] ∧
    progressTotal (workerLoop perfectEnv 7 0) = 0 ∧
    (∀ i, i < 5 - 1 → (chunks 2 5)[i]? = some ⟨0, 0⟩) ∧
    (chunks 2 5)[5 - 1]? = some ⟨0, 2⟩ :=
  c9_degenerate_chunks 2 5 7 perfectEnv (by decide) (by decide)

/-- C1: the claim's intent (a failing worker ends the run: later passes never
execute, SecureDelete is never invoked, the caller does not get success) is
what the program's observable behaviour amounts to, but not by a `Failed`
transition: the code double-frees the failing worker's buffer — delete inside
the loop on the failure branch and again after the loop, src/main.cpp lines
169-179 and 189-190 — which is undefined behaviour and in practice aborts the
process during the failing pass. This theorem evaluates the model at the
claim's failing input (worker write failure on pass 2 of 5, 10-byte file, one
worker): the worker hits the double-free path, the run crashes in pass 2 with
only pass 1 completed, passes 3-5 never run, there is no normal exit, and
secure_delete_file is never invoked despite the confirmed deletion prompt. -/
theorem c1_double_free_crash :
    workerFails (failAtPass2 2) 0 10 = true ∧
    crashPass? failAtPass2 5 10 1 = some 2 ∧
    mainRun c1Env = MainOut.crashed [(1, [Ev.seek 0, Ev.write 0 10 10])] 2 ∧
    executedPasses (mainRun c1Env) = [1] ∧
    traceOfPass (mainRun c1Env) 3 = [] ∧
    exitCode (mainRun c1Env) = none ∧
    deleteInvoked (mainRun c1Env) = false := by
  decide

/-- C8 counterexample: when the rotational sysfs file opens but fgets yields
no data — a storage-probe resolution failure — is_ssd returns false but
prints no warning at all, refuting the part of the claim that says every
resolution failure is logged as a warning. -/
theorem c8_counterexample :
    (is_ssd c8Env).1 = false ∧ (is_ssd c8Env).2 = 0 := by
  decide

/-- The probe result feeds only the printed storage message and the trim
decision at deletion time: whatever it returns, the exit behaviour and the
set of completed passes of the run are unchanged. -/
theorem mainRun_probe_invariant (m : MainEnv) (p : ProbeEnv) :
    exitCode (mainRun { m with probe := p }) = exitCode (mainRun m) ∧
    executedPasses (mainRun { m with probe := p }) = executedPasses (mainRun m) := by
  obtain ⟨pa, th, v, pr, cs, oo, fs, io, cd, te, ro2⟩ := m
  constructor <;>
    · simp only [mainRun]
      split_ifs <;>
        first
          | rfl
          | (cases crashPass? io pa.toNat fs.toNat th.toNat <;> rfl)

/-- C8 amended: on any resolution failure is_ssd returns false — the code has
no separate UNKNOWN value; false is exactly the HDD treatment — so the caller
attempts no discard; the failure is logged as a warning in every failure case
except the silent fgets-yields-nothing case; and the probe result never
changes the exit code or which passes run. -/
theorem c8_probe_conservative (env : ProbeEnv) :
    ((env.statOk = false ∨ env.mountsOk = false ∨ env.matchFound = false ∨
      env.rotationalOpens = false ∨ env.rotationalRead = none) → (is_ssd env).1 = false) ∧
    ((env.statOk = false ∨ env.mountsOk = false ∨ env.matchFound = false ∨
      env.rotationalOpens = false) → (is_ssd env).2 = 1) ∧
    (∀ (tenv : TrimEnv) (removeOk : Bool) (fileSize : Int),
      (is_ssd env).1 = false →
        (secure_delete_file tenv removeOk (is_ssd env).1 fileSize).2 = none ∧
        (secure_delete_file tenv removeOk (is_ssd env).1 fileSize).1 = removeOk) ∧
    (∀ m : MainEnv, exitCode (mainRun { m with probe := env }) = exitCode (mainRun m) ∧
      executedPasses (mainRun { m with probe := env }) = executedPasses (mainRun m)) := by
  refine ⟨?_, ?_, ?_, ?_⟩
  · intro h
    obtain ⟨s, mo, ma, ro, rr⟩ := env
    cases s <;> cases mo <;> cases ma <;> cases ro <;> rcases rr with _ | c <;>
      simp [is_ssd] <;> simp_all
  · intro h
    obtain ⟨s, mo, ma, ro, rr⟩ := env
    cases s <;> cases mo <;> cases ma <;> cases ro <;> rcases rr with _ | c <;>
      simp [is_ssd] <;> simp_all
  · intro tenv removeOk fileSize h
    rw [h]
    exact ⟨by simp [secure_delete_file], rfl⟩
  · intro m
    exact mainRun_probe_invariant m env

/-- C8 witness: a failed stat yields false with one warning line. -/
theorem c8_probe_conservative_witness :
    (is_ssd c8WEnv).1 = false ∧ (is_ssd c8WEnv).2 = 1 :=
  ⟨(c8_probe_conservative c8WEnv).1 (Or.inl rfl),
   (c8_probe_conservative c8WEnv).2.1 (Or.inl rfl)⟩
